import Mathlib

/-!
Verification of the merkle_trees_th repository: a fixed-depth, array-backed
binary Merkle tree over 32-byte hash values represented as 0x-prefixed hex
strings.  The cryptographic hash is out of scope of the repository (an opaque
function from bytes to 32 bytes), so every tree operation below is
parameterized by an arbitrary `H : Bytes → Bytes`.

Source files embedded here:
  src/src/errors/errors.rs       (ValidationError, MerkleError)
  src/src/utils/index.rs         (depth_offset_to_index, index_to_depth_offset,
                                  parent_index, left_child_index)
  src/src/merkle_tree/merkle_tree.rs (MerkleTree: new, root, num_leaves,
                                  is_left_child, set, proof, verify)

Rust `usize` values are modelled as `Nat` (no value in the program can reach
2^64: depth is capped at 30).  Rust panics (out-of-bounds slice or index,
`usize` subtraction overflow) are modelled as explicit `panic` outcomes or
`none` results.  Byte values are `Fin 256`; boundary hex strings are lists of
characters.
-/

set_option maxHeartbeats 1000000

abbrev Byte := Fin 256

abbrev Bytes := List Byte

abbrev Str := List Char

/-- Error type of the external hex crate's decode, as used by the repository
(`hex::FromHexError`).  The payloads (offending character, index) are not
inspected by the repository, so only the constructors are modelled. -/
inductive FromHexError where
  | invalidHexCharacter
  | oddLength
deriving DecidableEq

/-- src/src/errors/errors.rs: `ValidationError`. -/
inductive ValidationError where
  | BelowZero
  | Invalid
deriving DecidableEq

/-- src/src/errors/errors.rs: `MerkleError`. -/
inductive MerkleError where
  | EncodeError (e : FromHexError)
  | InvalidBytes
  | MaxDepthExceeded
  | InvalidIndex
deriving DecidableEq

/-- Value of a single hex digit character, as accepted by the hex crate:
`0`-`9`, `a`-`f` and `A`-`F`. -/
def hexVal (c : Char) : Option (Fin 16) :=
  if h1 : 48 ≤ c.toNat ∧ c.toNat ≤ 57 then some ⟨c.toNat - 48, by omega⟩
  else if h2 : 97 ≤ c.toNat ∧ c.toNat ≤ 102 then some ⟨c.toNat - 87, by omega⟩
  else if h3 : 65 ≤ c.toNat ∧ c.toNat ≤ 70 then some ⟨c.toNat - 55, by omega⟩
  else none

/-- Pair loop of `hex::decode`: consumes two characters per output byte,
failing on the first character that is not a hex digit. -/
def hexDecodeCore : List Char → Except FromHexError Bytes
  | [] => .ok []
  | [_] => .error .oddLength
  | c1 :: c2 :: rest =>
    match hexVal c1 with
    | none => .error .invalidHexCharacter
    | some v1 =>
      match hexVal c2 with
      | none => .error .invalidHexCharacter
      | some v2 =>
        match hexDecodeCore rest with
        | .error e => .error e
        | .ok bs =>
          .ok (⟨16 * v1.val + v2.val, by have := v1.isLt; have := v2.isLt; omega⟩ :: bs)

/-- The hex crate's `hex::decode`: an odd-length input fails with `OddLength`
before any character is examined, otherwise the pairs are decoded. -/
def hexDecode (s : List Char) : Except FromHexError Bytes :=
  if s.length % 2 ≠ 0 then .error .oddLength else hexDecodeCore s

/-- Lower-case hex digit character for a value below 16 (`hex::encode`). -/
def hexDigitChar (d : Nat) : Char :=
  if d < 10 then Char.ofNat (48 + d) else Char.ofNat (87 + d)

/-- The hex crate's `hex::encode` (lower case), two characters per byte. -/
def hexEncode : Bytes → Str
  | [] => []
  | b :: bs => hexDigitChar (b.val / 16) :: hexDigitChar (b.val % 16) :: hexEncode bs

/-- The repository's `format!("0x{}", hex::encode(bs))`. -/
def hexWrap (bs : Bytes) : Str := '0' :: 'x' :: hexEncode bs

/-- Rust slice `&s[2..]`: `none` models the panic raised when `s` is shorter
than two characters. -/
def slice2 (s : Str) : Option Str :=
  if s.length < 2 then none else some (s.drop 2)

/-- The expression `hex::decode(&s[2..])` used by `set` and `verify`; the
outer `none` models the slicing panic on a short string. -/
def decodePrefixed (s : Str) : Option (Except FromHexError Bytes) :=
  match slice2 s with
  | none => none
  | some r => some (hexDecode r)

/-- Byte content of a stored node string, when it is defined: the string has
at least two characters and the rest is well-formed hex. -/
def strBytes (s : Str) : Option Bytes :=
  match decodePrefixed s with
  | some (.ok bs) => some bs
  | _ => none

/-- src/src/utils/index.rs: `depth_offset_to_index`. -/
def depth_offset_to_index (depth offset : Nat) : Except ValidationError Nat :=
  let base := 2 ^ depth - 1
  if offset > base then .error .Invalid else .ok (base + offset)

/-- The while loop of `index_to_depth_offset`: starting from `depth` with
`n` nodes counted so far (`n = 2 ^ (depth + 1) - 1` at every call site),
advance while `index ≥ n` and return the final `depth`. -/
def i2doLoop (index depth n : Nat) : Nat :=
  if h : index ≥ n then i2doLoop index (depth + 1) (n + 2 ^ (depth + 1)) else depth
termination_by index + 1 - n
decreasing_by
  have h2 : 0 < 2 ^ (depth + 1) := Nat.pos_pow_of_pos _ (by omega)
  omega

/-- src/src/utils/index.rs: `index_to_depth_offset`. -/
def index_to_depth_offset (index : Nat) : Nat × Nat :=
  let depth := i2doLoop index 0 1
  let base := if depth = 0 then 0 else 2 ^ depth - 1
  (depth, index - base)

/-- src/src/utils/index.rs: `parent_index`. -/
def parent_index (index : Nat) : Option Nat :=
  if index = 0 then none else some ((index - 1) / 2)

/-- src/src/utils/index.rs: `left_child_index`. -/
def left_child_index (index : Nat) : Nat := index * 2 + 1

/-- src/src/merkle_tree/merkle_tree.rs: the `MerkleTree` struct, a flat vector
of node hash strings. -/
structure MerkleTree where
  nodes : List Str
deriving DecidableEq

/-- src: `Direction`. -/
inductive Direction where
  | Left
  | Right
deriving DecidableEq

/-- src: `ProofStep`. -/
structure ProofStep where
  direction : Direction
  sibling : Str
deriving DecidableEq

/-- src: `MerkleTree::root`, `self.nodes[0].clone()`.  The repository only
calls it on the non-empty trees produced by `new`, where `get? 0` is defined. -/
def MerkleTree.root (t : MerkleTree) : Str := (t.nodes.get? 0).getD []

/-- src: `MerkleTree::num_leaves`, `self.nodes.len() / 2 + 1`. -/
def MerkleTree.num_leaves (t : MerkleTree) : Nat := t.nodes.length / 2 + 1

/-- src: `MerkleTree::is_left_child`, `index % 2 == 1`. -/
def MerkleTree.is_left_child (_t : MerkleTree) (index : Nat) : Bool :=
  index % 2 = 1

/-- Iterated doubling hash of `MerkleTree::new`'s build loop: the byte value
shared by every node `k` levels above the leaves. -/
def iterBytes (H : Bytes → Bytes) (leafBytes : Bytes) : Nat → Bytes
  | 0 => leafBytes
  | k + 1 => H (iterBytes H leafBytes k ++ iterBytes H leafBytes k)

/-- String stored by `MerkleTree::new` at a node `k` levels above the leaves:
the caller's string verbatim at the leaves, `format!("0x{}", hex::encode(..))`
of the iterated hash above them. -/
def iterStr (H : Bytes → Bytes) (leafStr : Str) (leafBytes : Bytes) : Nat → Str
  | 0 => leafStr
  | k + 1 => hexWrap (iterBytes H leafBytes (k + 1))

/-- Levels `d, d+1, ...` of the array built by `MerkleTree::new`, with `r`
levels remaining; the level built at depth `d` has `2 ^ d` equal entries and
sits `r - 1` levels above the leaves.  In the source, the level at depth `d`
occupies the index range `[2^d - 1, 2^(d+1) - 1)`, so the whole array is the
concatenation of these blocks in order of `d`. -/
def levelsFrom (H : Bytes → Bytes) (leafStr : Str) (leafBytes : Bytes) : Nat → Nat → List Str
  | _, 0 => []
  | d, r + 1 =>
    List.replicate (2 ^ d) (iterStr H leafStr leafBytes r) ++
      levelsFrom H leafStr leafBytes (d + 1) r

/-- Final node array of `MerkleTree::new` for the zero-indexed depth `dp`
(the source's `depth` after the `depth - 1` adjustment): the leaf fill
followed by the bottom-up level loop. -/
def buildNodes (H : Bytes → Bytes) (leafStr : Str) (leafBytes : Bytes) (dp : Nat) : List Str :=
  levelsFrom H leafStr leafBytes 0 (dp + 1)

/-- Outcome of `MerkleTree::new`. -/
inductive NewResult where
  | ok (t : MerkleTree)
  | err (e : MerkleError)
  | panic
deriving DecidableEq

/-- src: `MerkleTree::new(depth, initial_leaf)`.  The source checks
`depth > 30`, then computes `depth - 1` (a `usize` underflow when
`depth = 0`), then slices `&initial_leaf[2..]` (out of bounds when the string
is shorter than two characters), then checks the remaining length is 64,
then hex-decodes, then converts to `[u8; 32]` (unreachable failure after a
64-character decode). -/
def MerkleTree.new (H : Bytes → Bytes) (depth : Nat) (initial_leaf : Str) : NewResult :=
  if depth > 30 then .err .MaxDepthExceeded
  else if depth = 0 then .panic
  else
    match slice2 initial_leaf with
    | none => .panic
    | some string_to_decode =>
      if string_to_decode.length ≠ 64 then .err .InvalidBytes
      else
        match hexDecode string_to_decode with
        | .error e => .err (.EncodeError e)
        | .ok bytes =>
          if bytes.length ≠ 32 then .err .InvalidBytes
          else .ok ⟨buildNodes H initial_leaf bytes (depth - 1)⟩

/-- Outcome of `MerkleTree::set`.  Because the Rust method mutates `self`
in place and can return `Err` after having already written some nodes, the
error constructor carries the tree state at the moment of the early return. -/
inductive SetResult where
  | ok (t : MerkleTree)
  | err (e : MerkleError) (t : MerkleTree)
  | panic
deriving DecidableEq

/-- The while loop of `MerkleTree::set`: recompute `nodes[index]` as the hash
of its two children, then continue at `parent_index index`, stopping after
the root.  Children are read with `self.nodes[..]` (panic when out of bounds)
and decoded with `hex::decode(&..[2..])` (decode errors propagate with `?`,
leaving the vector as already mutated). -/
def updateLoop (H : Bytes → Bytes) (nodes : List Str) (index : Nat) : SetResult :=
  match nodes.get? (left_child_index index) with
  | none => .panic
  | some left_str =>
    match nodes.get? (left_child_index index + 1) with
    | none => .panic
    | some right_str =>
      match decodePrefixed left_str with
      | none => .panic
      | some (.error e) => .err (.EncodeError e) ⟨nodes⟩
      | some (.ok left_child_hash) =>
        match decodePrefixed right_str with
        | none => .panic
        | some (.error e) => .err (.EncodeError e) ⟨nodes⟩
        | some (.ok right_child_hash) =>
          let nodes2 := nodes.set index (hexWrap (H (left_child_hash ++ right_child_hash)))
          if h : index = 0 then .ok ⟨nodes2⟩
          else updateLoop H nodes2 ((index - 1) / 2)
termination_by index
decreasing_by omega

/-- src: `MerkleTree::set(leaf_index, value)`: bounds-check the leaf index,
overwrite the leaf slot with `value` verbatim (no validation of `value`),
then recompute every ancestor. -/
def MerkleTree.set (H : Bytes → Bytes) (t : MerkleTree) (leaf_index : Nat) (value : Str) :
    SetResult :=
  let leaf_count := t.num_leaves
  if leaf_index ≥ leaf_count then .err .InvalidIndex t
  else
    let array_index := t.nodes.length - leaf_count + leaf_index
    let nodes1 := t.nodes.set array_index value
    match parent_index array_index with
    | none => .ok ⟨nodes1⟩
    | some p => updateLoop H nodes1 p

/-- The while loop of `MerkleTree::proof`: from a flat index, collect the
direction and sibling of every step up to the root.  `none` models the panic
of the unchecked `self.nodes[sibling_index]` access. -/
def proofLoop (t : MerkleTree) (index : Nat) : Option (List ProofStep) :=
  if h : index = 0 then some []
  else
    let sibling_index := if t.is_left_child index then index + 1 else index - 1
    match t.nodes.get? sibling_index with
    | none => none
    | some sib =>
      match proofLoop t ((index - 1) / 2) with
      | none => none
      | some rest =>
        some (⟨if t.is_left_child index then Direction.Left else Direction.Right, sib⟩ :: rest)
termination_by index
decreasing_by omega

/-- src: `MerkleTree::proof(leaf_index)`: start at flat index
`leaf_index + nodes.len() - num_leaves()` and walk to the root.  There is no
bounds check on `leaf_index`. -/
def MerkleTree.proof (t : MerkleTree) (leaf_index : Nat) : Option (List ProofStep) :=
  proofLoop t (leaf_index + t.nodes.length - t.num_leaves)

/-- Outcome of `MerkleTree::verify`. -/
inductive VerifyResult where
  | ok (s : Str)
  | err (e : MerkleError)
  | panic
deriving DecidableEq

/-- src: `MerkleTree::verify(proof, leaf_value)`: fold the proof steps over
the claimed leaf value.  Each step decodes the sibling then the current
value, concatenates them sibling-first for a `Right` step and current-first
for a `Left` step, and re-encodes the hash.  An empty proof returns the leaf
value unchanged without examining it. -/
def MerkleTree.verify (H : Bytes → Bytes) : List ProofStep → Str → VerifyResult
  | [], current_value => .ok current_value
  | step :: rest, current_value =>
    match decodePrefixed step.sibling with
    | none => .panic
    | some (.error e) => .err (.EncodeError e)
    | some (.ok sibling_hash) =>
      match decodePrefixed current_value with
      | none => .panic
      | some (.error e) => .err (.EncodeError e)
      | some (.ok current_hash) =>
        match step.direction with
        | .Right => MerkleTree.verify H rest (hexWrap (H (sibling_hash ++ current_hash)))
        | .Left => MerkleTree.verify H rest (hexWrap (H (current_hash ++ sibling_hash)))

/-- String stored at flat position `i` of a node vector (empty for an
out-of-range index; every use below is in range). -/
def nodeStr (nodes : List Str) (i : Nat) : Str := (nodes.get? i).getD []

/-- Byte content of the node at flat position `i`. -/
def bytesAt (nodes : List Str) (i : Nat) : Bytes := (strBytes (nodeStr nodes i)).getD []

/-- Every node string of the vector has at least two characters and
well-formed hex after them. -/
def Decodable (nodes : List Str) : Prop :=
  ∀ i, i < nodes.length → (strBytes (nodeStr nodes i)).isSome = true

/-- The hash-consistency invariant at string level: every internal node
stores the canonical `0x`-wrapped encoding of the hash of the raw
concatenation of its two children's decoded bytes. -/
def HashInv (H : Bytes → Bytes) (nodes : List Str) : Prop :=
  ∀ i, 2 * i + 2 < nodes.length →
    nodeStr nodes i = hexWrap (H (bytesAt nodes (2 * i + 1) ++ bytesAt nodes (2 * i + 2)))

/-- Well-formedness of a tree: complete-tree length, decodable nodes and the
hash-consistency invariant. -/
def GoodTree (H : Bytes → Bytes) (t : MerkleTree) : Prop :=
  (∃ d, 1 ≤ d ∧ t.nodes.length = 2 ^ d - 1) ∧ Decodable t.nodes ∧ HashInv H t.nodes

/-- A `0x`-prefixed hex string of exactly 32 bytes, the leaf format named by
the specification. -/
def ValidHex32 (s : Str) : Prop :=
  s.length = 66 ∧ s.take 2 = ['0', 'x'] ∧ ∀ c ∈ s.drop 2, (hexVal c).isSome = true

instance (s : Str) : Decidable (ValidHex32 s) := by
  unfold ValidHex32
  infer_instance

/-- Every stored node string is either a caller-supplied valid leaf string or
the canonical wrap of an image of `H`. -/
def NodeShape (H : Bytes → Bytes) (nodes : List Str) : Prop :=
  ∀ j, j < nodes.length →
    ValidHex32 (nodeStr nodes j) ∨ ∃ bs, nodeStr nodes j = hexWrap (H bs)

/-- The set of flat indexes visited by the update loop started at `n`:
`n` itself and every iterated parent. -/
inductive InChain : Nat → Nat → Prop where
  | here (n : Nat) : InChain n n
  | up (n m : Nat) : n ≠ 0 → InChain ((n - 1) / 2) m → InChain n m

/-- Trees reachable through the public constructor and mutator as the claims
describe them: `new` with a depth in `[1, 30]` and a valid 32-byte
`0x`-prefixed hex leaf, followed by any number of successful `set` calls
whose values are valid 32-byte `0x`-prefixed hex strings. -/
inductive Reachable (H : Bytes → Bytes) : MerkleTree → Prop where
  | base (depth : Nat) (leaf : Str) (t : MerkleTree) :
      1 ≤ depth → depth ≤ 30 → ValidHex32 leaf →
      MerkleTree.new H depth leaf = .ok t → Reachable H t
  | step (t : MerkleTree) (i : Nat) (v : Str) (t2 : MerkleTree) :
      Reachable H t → ValidHex32 v →
      MerkleTree.set H t i v = .ok t2 → Reachable H t2

/-- A concrete stand-in for the opaque 256-bit hash: the constant 32-byte
zero output. -/
def H0 : Bytes → Bytes := fun _ => List.replicate 32 (0 : Fin 256)

/-- A concrete valid leaf: `0x` followed by 64 `a` digits. -/
def leaf0 : Str := '0' :: 'x' :: List.replicate 64 'a'

/-- The byte content of `leaf0`: 32 bytes of 0xaa. -/
def bytes0 : Bytes := List.replicate 32 (170 : Fin 256)

/-- The canonical wrap of `H0`'s constant output: `0x` and 64 `0` digits. -/
def root0 : Str := '0' :: 'x' :: List.replicate 64 '0'

/-- The depth-2 tree built by `new H0 2 leaf0`. -/
def tree2 : MerkleTree := ⟨[root0, leaf0, leaf0]⟩

/-- A 66-character string that is not hex after the prefix. -/
def zzStr : Str := '0' :: 'x' :: List.replicate 64 'z'

/-- A value that decodes to a single byte instead of 32. -/
def shortHex : Str := ['0', 'x', 'a', 'b']

theorem hexVal_hexDigitChar : ∀ d : Fin 16, hexVal (hexDigitChar d.val) = some d := by
  decide

theorem hexEncode_length (bs : Bytes) : (hexEncode bs).length = 2 * bs.length := by
  induction bs with
  | nil => rfl
  | cons b bs ih => simp [hexEncode, ih]; omega

theorem hexDecodeCore_encode (bs : Bytes) : hexDecodeCore (hexEncode bs) = .ok bs := by
  induction bs with
  | nil => rfl
  | cons b bs ih =>
    have hlt := b.isLt
    have h1 := hexVal_hexDigitChar ⟨b.val / 16, by omega⟩
    have h2 := hexVal_hexDigitChar ⟨b.val % 16, by omega⟩
    show hexDecodeCore (hexDigitChar (b.val / 16) :: hexDigitChar (b.val % 16) :: hexEncode bs)
      = .ok (b :: bs)
    unfold hexDecodeCore
    rw [h1, h2, ih]
    have hb : (⟨16 * (b.val / 16) + b.val % 16, by omega⟩ : Fin 256) = b := by
      apply Fin.ext
      simp only [Fin.val_mk]
      omega
    simp only [Fin.val_mk]
    rw [hb]

theorem hexDecode_encode (bs : Bytes) : hexDecode (hexEncode bs) = .ok bs := by
  unfold hexDecode
  rw [hexEncode_length]
  simp [Nat.mul_mod_right]
  exact hexDecodeCore_encode bs

theorem strBytes_hexWrap (bs : Bytes) : strBytes (hexWrap bs) = some bs := by
  unfold strBytes decodePrefixed slice2 hexWrap
  rw [if_neg (by simp)]
  simp [hexDecode_encode bs]

theorem strBytes_to_decodePrefixed (s : Str) (bs : Bytes) (h : strBytes s = some bs) :
    decodePrefixed s = some (.ok bs) := by
  unfold strBytes at h
  cases hd : decodePrefixed s with
  | none => rw [hd] at h; simp at h
  | some r =>
    cases r with
    | error e => rw [hd] at h; simp at h
    | ok bs2 => rw [hd] at h; simp at h; rw [h]

theorem hexDecodeCore_length :
    ∀ (s : List Char) (bs : Bytes), hexDecodeCore s = .ok bs → s.length = 2 * bs.length
  | [], bs => by
    intro h
    unfold hexDecodeCore at h
    simp at h
    simp [← h]
  | [c], bs => by
    intro h
    unfold hexDecodeCore at h
    simp at h
  | c1 :: c2 :: rest, bs => by
    intro h
    unfold hexDecodeCore at h
    cases h1 : hexVal c1 with
    | none => rw [h1] at h; simp at h
    | some v1 =>
      rw [h1] at h
      cases h2 : hexVal c2 with
      | none => rw [h2] at h; simp at h
      | some v2 =>
        rw [h2] at h
        cases h3 : hexDecodeCore rest with
        | error e => rw [h3] at h; simp at h
        | ok bs2 =>
          rw [h3] at h
          simp at h
          have := hexDecodeCore_length rest bs2 h3
          simp [← h, this]
          omega

theorem hexDecodeCore_ok :
    ∀ (s : List Char), s.length % 2 = 0 → (∀ c ∈ s, (hexVal c).isSome = true) →
      ∃ bs, hexDecodeCore s = .ok bs
  | [] => fun _ _ => ⟨[], rfl⟩
  | [c] => by
    intro h _
    simp at h
  | c1 :: c2 :: rest => by
    intro hlen hhex
    obtain ⟨v1, hv1⟩ := Option.isSome_iff_exists.mp (hhex c1 (by simp))
    obtain ⟨v2, hv2⟩ := Option.isSome_iff_exists.mp (hhex c2 (by simp))
    obtain ⟨bs, hbs⟩ := hexDecodeCore_ok rest (by simp at hlen; omega)
      (fun c hc => hhex c (by simp [hc]))
    refine ⟨⟨16 * v1.val + v2.val, by have := v1.isLt; have := v2.isLt; omega⟩ :: bs, ?_⟩
    unfold hexDecodeCore
    rw [hv1, hv2, hbs]

theorem ValidHex32_strBytes (s : Str) (h : ValidHex32 s) :
    ∃ bs, strBytes s = some bs ∧ bs.length = 32 := by
  obtain ⟨h1, _h2, h3⟩ := h
  have hdrop : (s.drop 2).length = 64 := by simp [h1]
  obtain ⟨bs, hbs⟩ := hexDecodeCore_ok (s.drop 2) (by omega) h3
  have hlen := hexDecodeCore_length _ _ hbs
  refine ⟨bs, ?_, by omega⟩
  unfold strBytes decodePrefixed slice2
  rw [if_neg (by omega)]
  simp [hexDecode, hdrop, hbs]

theorem nodeStr_get? (nodes : List Str) (i : Nat) (h : i < nodes.length) :
    nodes.get? i = some (nodeStr nodes i) := by
  unfold nodeStr
  rw [List.get?_eq_getElem?, List.getElem?_eq_getElem h]
  rfl

theorem nodeStr_set_self (nodes : List Str) (i : Nat) (v : Str) (h : i < nodes.length) :
    nodeStr (nodes.set i v) i = v := by
  unfold nodeStr
  rw [List.get?_eq_getElem?, List.getElem?_set_eq_of_lt v h]
  rfl

theorem nodeStr_set_ne (nodes : List Str) (i j : Nat) (v : Str) (h : i ≠ j) :
    nodeStr (nodes.set i v) j = nodeStr nodes j := by
  unfold nodeStr
  rw [List.get?_eq_getElem?, List.get?_eq_getElem?, List.getElem?_set_ne h]

theorem bytesAt_eq (nodes : List Str) (i : Nat) (bs : Bytes)
    (h : strBytes (nodeStr nodes i) = some bs) : bytesAt nodes i = bs := by
  unfold bytesAt
  rw [h]
  rfl

theorem strBytes_iterStr (H : Bytes → Bytes) (ls : Str) (lb : Bytes)
    (h : strBytes ls = some lb) (k : Nat) :
    strBytes (iterStr H ls lb k) = some (iterBytes H lb k) := by
  cases k with
  | zero => exact h
  | succ k => exact strBytes_hexWrap _

theorem levelsFrom_length (H : Bytes → Bytes) (ls : Str) (lb : Bytes) :
    ∀ r d, (levelsFrom H ls lb d r).length + 2 ^ d = 2 ^ d * 2 ^ r := by
  intro r
  induction r with
  | zero => intro d; simp [levelsFrom]
  | succ r ih =>
    intro d
    have h1 := ih (d + 1)
    have h2 : (2:Nat) ^ (d + 1) = 2 * 2 ^ d := by rw [pow_succ]; ring
    have h3 : (2:Nat) ^ d * 2 ^ (r + 1) = 2 ^ (d + 1) * 2 ^ r := by
      rw [h2, pow_succ]; ring
    simp only [levelsFrom, List.length_append, List.length_replicate]
    omega

theorem buildNodes_length (H : Bytes → Bytes) (ls : Str) (lb : Bytes) (dp : Nat) :
    (buildNodes H ls lb dp).length = 2 ^ (dp + 1) - 1 := by
  have := levelsFrom_length H ls lb (dp + 1) 0
  simp at this
  unfold buildNodes
  omega

theorem levelsFrom_get (H : Bytes → Bytes) (ls : Str) (lb : Bytes) :
    ∀ ℓ r d off, ℓ < r → off < 2 ^ (d + ℓ) →
      nodeStr (levelsFrom H ls lb d r) (2 ^ d * (2 ^ ℓ - 1) + off) =
        iterStr H ls lb (r - 1 - ℓ) := by
  intro ℓ
  induction ℓ with
  | zero =>
    intro r d off hlr hoff
    obtain ⟨r2, rfl⟩ : ∃ r2, r = r2 + 1 := ⟨r - 1, by omega⟩
    simp only [pow_zero, Nat.sub_self, Nat.mul_zero, Nat.zero_add, levelsFrom]
    unfold nodeStr
    rw [List.get?_eq_getElem?,
      List.getElem?_append_left (by simp; simpa using hoff)]
    simp [List.getElem?_replicate, show off < 2 ^ d by simpa using hoff]
  | succ ℓ ih =>
    intro r d off hlr hoff
    obtain ⟨r2, rfl⟩ : ∃ r2, r = r2 + 1 := ⟨r - 1, by omega⟩
    have hB : 1 ≤ (2:Nat) ^ ℓ := Nat.pos_pow_of_pos _ (by omega)
    have e1 : (2:Nat) ^ (ℓ + 1) = 2 * 2 ^ ℓ := by rw [pow_succ]; ring
    have e2 : (2:Nat) ^ (d + 1) = 2 * 2 ^ d := by rw [pow_succ]; ring
    have hpos : 2 ^ d * (2 ^ (ℓ + 1) - 1) + off
        = 2 ^ d + (2 ^ (d + 1) * (2 ^ ℓ - 1) + off) := by
      obtain ⟨b, hb⟩ : ∃ b, (2:Nat) ^ ℓ = b + 1 := ⟨2 ^ ℓ - 1, by omega⟩
      rw [hb] at e1
      rw [e1, e2, hb]
      simp only [Nat.add_sub_cancel]
      have : 2 * (b + 1) - 1 = 2 * b + 1 := by omega
      rw [this]
      ring
    rw [hpos]
    simp only [levelsFrom]
    unfold nodeStr
    rw [List.get?_eq_getElem?, List.getElem?_append_right (by simp)]
    have hoff2 : off < 2 ^ (d + 1 + ℓ) := by
      have : d + 1 + ℓ = d + (ℓ + 1) := by omega
      rw [this]
      exact hoff
    have hih := ih r2 (d + 1) off (by omega) hoff2
    unfold nodeStr at hih
    rw [List.get?_eq_getElem?] at hih
    simp only [List.length_replicate, Nat.add_sub_cancel_left]
    convert hih using 2 <;> omega

theorem buildNodes_get (H : Bytes → Bytes) (ls : Str) (lb : Bytes) (dp ℓ off : Nat)
    (hℓ : ℓ ≤ dp) (hoff : off < 2 ^ ℓ) :
    nodeStr (buildNodes H ls lb dp) (2 ^ ℓ - 1 + off) = iterStr H ls lb (dp - ℓ) := by
  have := levelsFrom_get H ls lb ℓ (dp + 1) 0 off (by omega) (by simpa using hoff)
  simp only [pow_zero, Nat.one_mul, Nat.add_sub_cancel] at this
  convert this using 2 <;> omega

theorem exists_level (i : Nat) : ∃ ℓ off, off < 2 ^ ℓ ∧ i = 2 ^ ℓ - 1 + off := by
  refine ⟨Nat.log 2 (i + 1), i + 1 - 2 ^ Nat.log 2 (i + 1), ?_, ?_⟩
  all_goals
    have h1 : 2 ^ Nat.log 2 (i + 1) ≤ i + 1 := Nat.pow_log_le_self 2 (by omega)
    have h2 : i + 1 < 2 ^ (Nat.log 2 (i + 1) + 1) := Nat.lt_pow_succ_log_self (by omega) _
    have h3 : 2 ^ (Nat.log 2 (i + 1) + 1) = 2 * 2 ^ Nat.log 2 (i + 1) := by
      rw [pow_succ]; ring
    omega

theorem level_bound (ℓ off dp i : Nat) (hoff : off < 2 ^ ℓ) (hi : i = 2 ^ ℓ - 1 + off)
    (hlt : i < 2 ^ (dp + 1) - 1) : ℓ ≤ dp := by
  have h1 : (2:Nat) ^ ℓ < 2 ^ (dp + 1) := by
    have := Nat.pos_pow_of_pos ℓ (show 0 < 2 by omega)
    have := Nat.pos_pow_of_pos (dp + 1) (show 0 < 2 by omega)
    omega
  have := (Nat.pow_lt_pow_iff_right (show 1 < 2 by omega)).mp h1
  omega

theorem new_ok_inv (H : Bytes → Bytes) (depth : Nat) (leaf : Str) (t : MerkleTree)
    (h : MerkleTree.new H depth leaf = .ok t) :
    1 ≤ depth ∧ depth ≤ 30 ∧
      ∃ bytes, strBytes leaf = some bytes ∧
        t.nodes = buildNodes H leaf bytes (depth - 1) := by
  unfold MerkleTree.new at h
  by_cases h30 : depth > 30
  · rw [if_pos h30] at h; simp at h
  rw [if_neg h30] at h
  by_cases h0 : depth = 0
  · rw [if_pos h0] at h; simp at h
  rw [if_neg h0] at h
  cases hs : slice2 leaf with
  | none => rw [hs] at h; simp at h
  | some s2 =>
    simp only [hs] at h
    by_cases h64 : s2.length ≠ 64
    · rw [if_pos h64] at h; simp at h
    rw [if_neg h64] at h
    cases hd : hexDecode s2 with
    | error e => simp only [hd] at h; simp at h
    | ok bytes =>
      simp only [hd] at h
      by_cases h32 : bytes.length ≠ 32
      · rw [if_pos h32] at h; simp at h
      rw [if_neg h32] at h
      refine ⟨by omega, by omega, bytes, ?_, ?_⟩
      · unfold strBytes decodePrefixed
        simp only [hs, hd]
      · cases h2 : t
        rw [h2] at h
        simp at h
        simp [← h]

theorem new_ok_of_valid (H : Bytes → Bytes) (depth : Nat) (leaf : Str)
    (h1 : 1 ≤ depth) (h30 : depth ≤ 30) (hv : ValidHex32 leaf) :
    ∃ bytes, strBytes leaf = some bytes ∧ bytes.length = 32 ∧
      MerkleTree.new H depth leaf = .ok ⟨buildNodes H leaf bytes (depth - 1)⟩ := by
  obtain ⟨bytes, hb, hblen⟩ := ValidHex32_strBytes leaf hv
  obtain ⟨hl66, _, _⟩ := hv
  have hs : slice2 leaf = some (leaf.drop 2) := by
    unfold slice2; rw [if_neg (by omega)]
  have hdlen : (leaf.drop 2).length = 64 := by simp [hl66]
  have hd : hexDecode (leaf.drop 2) = .ok bytes := by
    have h2 := strBytes_to_decodePrefixed leaf bytes hb
    unfold decodePrefixed at h2
    rw [hs] at h2
    simp at h2
    exact h2
  refine ⟨bytes, hb, hblen, ?_⟩
  unfold MerkleTree.new
  rw [if_neg (by omega), if_neg (by omega)]
  simp only [hs]
  rw [if_neg (by omega)]
  simp only [hd]
  rw [if_neg (by omega)]

theorem goodTree_new (H : Bytes → Bytes) (depth : Nat) (leaf : Str) (t : MerkleTree)
    (h : MerkleTree.new H depth leaf = .ok t) : GoodTree H t := by
  obtain ⟨h1, _h30, bytes, hb, hnodes⟩ := new_ok_inv H depth leaf t h
  have hlen : t.nodes.length = 2 ^ (depth - 1 + 1) - 1 := by
    rw [hnodes]; exact buildNodes_length H leaf bytes (depth - 1)
  refine ⟨⟨depth - 1 + 1, by omega, hlen⟩, ?_, ?_⟩
  · intro i hi
    rw [hlen] at hi
    obtain ⟨ℓ, off, hoff, hieq⟩ := exists_level i
    have hℓ : ℓ ≤ depth - 1 := level_bound ℓ off (depth - 1) i hoff hieq hi
    have hget := buildNodes_get H leaf bytes (depth - 1) ℓ off hℓ hoff
    rw [hnodes, hieq, hget, strBytes_iterStr H leaf bytes hb]
    rfl
  · intro i hi
    rw [hlen] at hi
    have h2dp : (2:Nat) ^ (depth - 1 + 1) = 2 * 2 ^ (depth - 1) := by rw [pow_succ]; ring
    obtain ⟨ℓ, off, hoff, hieq⟩ := exists_level i
    have hpl : 0 < (2:Nat) ^ ℓ := Nat.pos_pow_of_pos _ (by omega)
    have hpdp : 0 < (2:Nat) ^ (depth - 1) := Nat.pos_pow_of_pos _ (by omega)
    have hidp : i < 2 ^ (depth - 1) - 1 := by omega
    have hℓlt : ℓ < depth - 1 := by
      have hlt : (2:Nat) ^ ℓ < 2 ^ (depth - 1) := by omega
      exact (Nat.pow_lt_pow_iff_right (show 1 < 2 by omega)).mp hlt
    have e3 : (2:Nat) ^ (ℓ + 1) = 2 * 2 ^ ℓ := by rw [pow_succ]; ring
    have hc1 : 2 * i + 1 = 2 ^ (ℓ + 1) - 1 + 2 * off := by omega
    have hc2 : 2 * i + 2 = 2 ^ (ℓ + 1) - 1 + (2 * off + 1) := by omega
    have hni : nodeStr t.nodes i = iterStr H leaf bytes (depth - 1 - ℓ) := by
      rw [hnodes, hieq]
      exact buildNodes_get H leaf bytes (depth - 1) ℓ off (by omega) hoff
    have hnc1 : nodeStr t.nodes (2 * i + 1)
        = iterStr H leaf bytes (depth - 1 - (ℓ + 1)) := by
      rw [hnodes, hc1]
      exact buildNodes_get H leaf bytes (depth - 1) (ℓ + 1) (2 * off) (by omega) (by omega)
    have hnc2 : nodeStr t.nodes (2 * i + 2)
        = iterStr H leaf bytes (depth - 1 - (ℓ + 1)) := by
      rw [hnodes, hc2]
      exact buildNodes_get H leaf bytes (depth - 1) (ℓ + 1) (2 * off + 1) (by omega) (by omega)
    have hby1 : bytesAt t.nodes (2 * i + 1) = iterBytes H bytes (depth - 1 - (ℓ + 1)) :=
      bytesAt_eq _ _ _ (by rw [hnc1]; exact strBytes_iterStr H leaf bytes hb _)
    have hby2 : bytesAt t.nodes (2 * i + 2) = iterBytes H bytes (depth - 1 - (ℓ + 1)) :=
      bytesAt_eq _ _ _ (by rw [hnc2]; exact strBytes_iterStr H leaf bytes hb _)
    rw [hni, hby1, hby2]
    have hk : depth - 1 - ℓ = (depth - 1 - (ℓ + 1)) + 1 := by omega
    rw [hk]
    simp [iterStr, iterBytes]

theorem nodeShape_new (H : Bytes → Bytes) (depth : Nat) (leaf : Str) (t : MerkleTree)
    (hv : ValidHex32 leaf) (h : MerkleTree.new H depth leaf = .ok t) :
    NodeShape H t.nodes := by
  obtain ⟨h1, _h30, bytes, hb, hnodes⟩ := new_ok_inv H depth leaf t h
  intro j hj
  rw [hnodes, buildNodes_length] at hj
  obtain ⟨ℓ, off, hoff, hieq⟩ := exists_level j
  have hℓ : ℓ ≤ depth - 1 := level_bound ℓ off (depth - 1) j hoff hieq hj
  have hget := buildNodes_get H leaf bytes (depth - 1) ℓ off hℓ hoff
  rw [hnodes, hieq, hget]
  cases hk : depth - 1 - ℓ with
  | zero => left; exact hv
  | succ k =>
    right
    exact ⟨iterBytes H bytes k ++ iterBytes H bytes k, by simp [iterStr, iterBytes]⟩

theorem inChain_le {n m : Nat} (h : InChain n m) : m ≤ n := by
  induction h with
  | here n => exact Nat.le_refl n
  | up n m hn _h ih => omega

theorem bytesAt_set_ne (nodes : List Str) (i j : Nat) (v : Str) (h : i ≠ j) :
    bytesAt (nodes.set i v) j = bytesAt nodes j := by
  unfold bytesAt
  rw [nodeStr_set_ne nodes i j v h]

theorem updateLoop_spec (H : Bytes → Bytes) :
    ∀ idx nodes, (∃ m, 1 ≤ m ∧ nodes.length = 2 * m - 1) →
      2 * idx + 2 < nodes.length →
      Decodable nodes →
      (∀ i, 2 * i + 2 < nodes.length → ¬ InChain idx i →
        nodeStr nodes i
          = hexWrap (H (bytesAt nodes (2 * i + 1) ++ bytesAt nodes (2 * i + 2)))) →
      ∃ nodes2, updateLoop H nodes idx = .ok ⟨nodes2⟩ ∧
        nodes2.length = nodes.length ∧ Decodable nodes2 ∧ HashInv H nodes2 ∧
        (∀ j, ¬ InChain idx j → nodeStr nodes2 j = nodeStr nodes j) ∧
        (∀ j, nodeStr nodes2 j = nodeStr nodes j ∨
          ∃ bs, nodeStr nodes2 j = hexWrap (H bs)) := by
  intro idx
  induction idx using Nat.strong_induction_on with
  | _ idx ih =>
  intro nodes hodd hidx hdec hexc
  obtain ⟨m, hm1, hmlen⟩ := hodd
  have hc1 : 2 * idx + 1 < nodes.length := by omega
  have hidxlt : idx < nodes.length := by omega
  have hL : left_child_index idx = 2 * idx + 1 := by unfold left_child_index; omega
  have hg1 : nodes.get? (left_child_index idx) = some (nodeStr nodes (2 * idx + 1)) := by
    rw [hL]; exact nodeStr_get? nodes _ hc1
  have hg2 : nodes.get? (left_child_index idx + 1) = some (nodeStr nodes (2 * idx + 2)) := by
    rw [hL]; exact nodeStr_get? nodes _ hidx
  obtain ⟨lb, hlb⟩ := Option.isSome_iff_exists.mp (hdec _ hc1)
  obtain ⟨rb, hrb⟩ := Option.isSome_iff_exists.mp (hdec _ hidx)
  have hd1 := strBytes_to_decodePrefixed _ _ hlb
  have hd2 := strBytes_to_decodePrefixed _ _ hrb
  have hby1 : bytesAt nodes (2 * idx + 1) = lb := bytesAt_eq _ _ _ hlb
  have hby2 : bytesAt nodes (2 * idx + 2) = rb := bytesAt_eq _ _ _ hrb
  have hstep : updateLoop H nodes idx =
      if idx = 0 then .ok ⟨nodes.set idx (hexWrap (H (lb ++ rb)))⟩
      else updateLoop H (nodes.set idx (hexWrap (H (lb ++ rb)))) ((idx - 1) / 2) := by
    conv_lhs => rw [updateLoop.eq_def]
    simp only [hg1, hg2, hd1, hd2, dite_eq_ite]
  by_cases h0 : idx = 0
  · subst h0
    rw [hstep, if_pos rfl]
    refine ⟨_, rfl, by simp [List.length_set], ?_, ?_, ?_, ?_⟩
    · intro j hj
      rw [List.length_set] at hj
      by_cases hj0 : j = 0
      · subst hj0
        rw [nodeStr_set_self _ _ _ hidxlt, strBytes_hexWrap]
        rfl
      · rw [nodeStr_set_ne _ _ _ _ (Ne.symm hj0)]
        exact hdec j hj
    · intro i hi
      rw [List.length_set] at hi
      by_cases hi0 : i = 0
      · subst hi0
        rw [nodeStr_set_self _ _ _ hidxlt, bytesAt_set_ne _ _ _ _ (by omega),
          bytesAt_set_ne _ _ _ _ (by omega), hby1, hby2]
      · have hni : ¬ InChain 0 i := fun hch => hi0 (by have := inChain_le hch; omega)
        rw [nodeStr_set_ne _ _ _ _ (Ne.symm hi0), bytesAt_set_ne _ _ _ _ (by omega),
          bytesAt_set_ne _ _ _ _ (by omega)]
        exact hexc i hi hni
    · intro j hnj
      have hj0 : j ≠ 0 := by
        intro he
        apply hnj
        rw [he]
        exact InChain.here 0
      exact nodeStr_set_ne _ _ _ _ (Ne.symm hj0)
    · intro j
      by_cases hj0 : j = 0
      · subst hj0
        right
        exact ⟨lb ++ rb, nodeStr_set_self _ _ _ hidxlt⟩
      · left
        exact nodeStr_set_ne _ _ _ _ (Ne.symm hj0)
  · set p := (idx - 1) / 2 with hp
    set nodes1 := nodes.set idx (hexWrap (H (lb ++ rb))) with hn1
    have hlen1 : nodes1.length = nodes.length := by rw [hn1, List.length_set]
    have hp2 : 2 * p + 2 < nodes1.length := by rw [hlen1]; omega
    have hdec1 : Decodable nodes1 := by
      intro j hj
      rw [hlen1] at hj
      by_cases hji : j = idx
      · subst hji
        rw [hn1, nodeStr_set_self _ _ _ hidxlt, strBytes_hexWrap]
        rfl
      · rw [hn1, nodeStr_set_ne _ _ _ _ (Ne.symm hji)]
        exact hdec j hj
    have hexc1 : ∀ i, 2 * i + 2 < nodes1.length → ¬ InChain p i →
        nodeStr nodes1 i
          = hexWrap (H (bytesAt nodes1 (2 * i + 1) ++ bytesAt nodes1 (2 * i + 2))) := by
      intro i hi hni
      rw [hlen1] at hi
      by_cases hie : i = idx
      · subst hie
        rw [hn1, nodeStr_set_self _ _ _ hidxlt, bytesAt_set_ne _ _ _ _ (by omega),
          bytesAt_set_ne _ _ _ _ (by omega), hby1, hby2]
      · have hnidx : ¬ InChain idx i := by
          intro hch
          cases hch with
          | here => exact hie rfl
          | up _ _ _ h2 => exact hni h2
        have hchild1 : idx ≠ 2 * i + 1 := by
          intro he
          have hpi : p = i := by omega
          exact hni (by rw [hpi]; exact InChain.here i)
        have hchild2 : idx ≠ 2 * i + 2 := by
          intro he
          have hpi : p = i := by omega
          exact hni (by rw [hpi]; exact InChain.here i)
        rw [hn1, nodeStr_set_ne _ _ _ _ (Ne.symm hie), bytesAt_set_ne _ _ _ _ hchild1,
          bytesAt_set_ne _ _ _ _ hchild2]
        exact hexc i hi hnidx
    obtain ⟨nodes3, hloop, hlen3, hdec3, hinv3, hagree3, hshape3⟩ :=
      ih p (by omega) nodes1 ⟨m, hm1, by omega⟩ hp2 hdec1 hexc1
    refine ⟨nodes3, ?_, by omega, hdec3, hinv3, ?_, ?_⟩
    · rw [hstep, if_neg h0]
      exact hloop
    · intro j hnj
      have hj1 : j ≠ idx := by
        intro he
        apply hnj
        rw [he]
        exact InChain.here idx
      have hnp : ¬ InChain p j := fun hch => hnj (InChain.up idx j h0 hch)
      rw [hagree3 j hnp, hn1, nodeStr_set_ne _ _ _ _ (Ne.symm hj1)]
    · intro j
      cases hshape3 j with
      | inl he =>
        by_cases hji : j = idx
        · subst hji
          right
          refine ⟨lb ++ rb, ?_⟩
          rw [he, hn1, nodeStr_set_self _ _ _ hidxlt]
        · left
          rw [he, hn1, nodeStr_set_ne _ _ _ _ (Ne.symm hji)]
      | inr he =>
        right
        exact he

theorem set_spec (H : Bytes → Bytes) (t : MerkleTree) (hg : GoodTree H t) (i : Nat) (v : Str)
    (hi : i < t.num_leaves) (hv : (strBytes v).isSome = true) :
    ∃ t2, MerkleTree.set H t i v = .ok t2 ∧ GoodTree H t2 ∧
      t2.nodes.length = t.nodes.length ∧
      (∀ j, nodeStr t2.nodes j = nodeStr t.nodes j ∨ nodeStr t2.nodes j = v ∨
        ∃ bs, nodeStr t2.nodes j = hexWrap (H bs)) := by
  obtain ⟨⟨d, hd1, hdlen⟩, hdec, hinv⟩ := hg
  obtain ⟨e, rfl⟩ : ∃ e, d = e + 1 := ⟨d - 1, by omega⟩
  have h2e : (2:Nat) ^ (e + 1) = 2 * 2 ^ e := by rw [pow_succ]; ring
  have hpe : 0 < (2:Nat) ^ e := Nat.pos_pow_of_pos _ (by omega)
  have hL : t.num_leaves = 2 ^ e := by
    unfold MerkleTree.num_leaves
    omega
  rw [hL] at hi
  have hne : ¬ i ≥ t.num_leaves := by rw [hL]; omega
  have hq : t.nodes.length - t.num_leaves + i = 2 ^ e - 1 + i := by rw [hL]; omega
  have hqlt : 2 ^ e - 1 + i < t.nodes.length := by omega
  simp only [MerkleTree.set]
  rw [if_neg hne, hq]
  by_cases hq0 : 2 ^ e - 1 + i = 0
  · have hlen1 : t.nodes.length = 1 := by omega
    rw [hq0]
    simp only [parent_index, if_pos rfl]
    refine ⟨_, rfl, ⟨⟨e + 1, by omega, by rw [List.length_set]; omega⟩, ?_, ?_⟩,
      by rw [List.length_set], ?_⟩
    · intro j hj
      rw [List.length_set, hlen1] at hj
      have hj0 : j = 0 := by omega
      subst hj0
      rw [nodeStr_set_self _ _ _ (by omega)]
      exact hv
    · intro i2 hi2
      rw [List.length_set, hlen1] at hi2
      omega
    · intro j
      by_cases hj : j = 0
      · right; left
        subst hj
        rw [nodeStr_set_self _ _ _ (by omega)]
      · left
        exact nodeStr_set_ne _ _ _ _ (Ne.symm hj)
  · simp only [parent_index, if_neg hq0]
    have hodd1 : ∃ m, 1 ≤ m ∧ (t.nodes.set (2 ^ e - 1 + i) v).length = 2 * m - 1 :=
      ⟨2 ^ e, by omega, by rw [List.length_set]; omega⟩
    have hp2 : 2 * ((2 ^ e - 1 + i - 1) / 2) + 2 < (t.nodes.set (2 ^ e - 1 + i) v).length := by
      rw [List.length_set]
      omega
    have hdec1 : Decodable (t.nodes.set (2 ^ e - 1 + i) v) := by
      intro j hj
      rw [List.length_set] at hj
      by_cases hji : 2 ^ e - 1 + i = j
      · rw [← hji, nodeStr_set_self _ _ _ hqlt]
        exact hv
      · rw [nodeStr_set_ne _ _ _ _ hji]
        exact hdec j hj
    have hexc1 : ∀ i2, 2 * i2 + 2 < (t.nodes.set (2 ^ e - 1 + i) v).length →
        ¬ InChain ((2 ^ e - 1 + i - 1) / 2) i2 →
        nodeStr (t.nodes.set (2 ^ e - 1 + i) v) i2
          = hexWrap (H (bytesAt (t.nodes.set (2 ^ e - 1 + i) v) (2 * i2 + 1)
              ++ bytesAt (t.nodes.set (2 ^ e - 1 + i) v) (2 * i2 + 2))) := by
      intro i2 hi2 hni
      rw [List.length_set] at hi2
      have hi2q : 2 ^ e - 1 + i ≠ i2 := by omega
      have hch1 : 2 ^ e - 1 + i ≠ 2 * i2 + 1 := by
        intro he
        have hpi : (2 ^ e - 1 + i - 1) / 2 = i2 := by omega
        exact hni (by rw [hpi]; exact InChain.here i2)
      have hch2 : 2 ^ e - 1 + i ≠ 2 * i2 + 2 := by
        intro he
        have hpi : (2 ^ e - 1 + i - 1) / 2 = i2 := by omega
        exact hni (by rw [hpi]; exact InChain.here i2)
      rw [nodeStr_set_ne _ _ _ _ hi2q, bytesAt_set_ne _ _ _ _ hch1,
        bytesAt_set_ne _ _ _ _ hch2]
      exact hinv i2 hi2
    obtain ⟨nodes3, hloop, hlen3, hdec3, hinv3, _hagree3, hshape3⟩ :=
      updateLoop_spec H ((2 ^ e - 1 + i - 1) / 2) (t.nodes.set (2 ^ e - 1 + i) v)
        hodd1 hp2 hdec1 hexc1
    rw [List.length_set] at hlen3
    refine ⟨⟨nodes3⟩, hloop, ⟨⟨e + 1, by omega, by show nodes3.length = 2 ^ (e + 1) - 1; omega⟩,
      hdec3, hinv3⟩, by show nodes3.length = t.nodes.length; omega, ?_⟩
    intro j
    cases hshape3 j with
    | inl he =>
      by_cases hji : 2 ^ e - 1 + i = j
      · right; left
        rw [he, ← hji, nodeStr_set_self _ _ _ hqlt]
      · left
        rw [he, nodeStr_set_ne _ _ _ _ hji]
    | inr he =>
      right; right
      exact he

theorem reachable_good (H : Bytes → Bytes) (t : MerkleTree) (h : Reachable H t) :
    GoodTree H t ∧ NodeShape H t.nodes := by
  induction h with
  | base depth leaf t h1 h30 hv hnew =>
    exact ⟨goodTree_new H depth leaf t hnew, nodeShape_new H depth leaf t hv hnew⟩
  | step t i v t2 _hre hv hset ih =>
    obtain ⟨hg, hsh⟩ := ih
    by_cases hi : i < t.num_leaves
    · obtain ⟨vb, hvb, _⟩ := ValidHex32_strBytes v hv
      obtain ⟨t3, hok, hg3, hlen3, hsh3⟩ :=
        set_spec H t hg i v hi (by rw [hvb]; rfl)
      rw [hok] at hset
      have ht23 : t2 = t3 := by
        cases hset
        rfl
      subst ht23
      refine ⟨hg3, ?_⟩
      intro j hj
      rw [hlen3] at hj
      cases hsh3 j with
      | inl he => rw [he]; exact hsh j hj
      | inr he =>
        cases he with
        | inl he2 => left; rw [he2]; exact hv
        | inr he2 => right; exact he2
    · exfalso
      simp only [MerkleTree.set] at hset
      rw [if_pos (by omega)] at hset
      simp at hset

theorem verify_proofLoop (H : Bytes → Bytes) (t : MerkleTree)
    (hodd : ∃ m, 1 ≤ m ∧ t.nodes.length = 2 * m - 1)
    (hdec : Decodable t.nodes) (hinv : HashInv H t.nodes) :
    ∀ j, j < t.nodes.length →
      ∃ ps, proofLoop t j = some ps ∧
        MerkleTree.verify H ps (nodeStr t.nodes j) = .ok (nodeStr t.nodes 0) := by
  obtain ⟨m, hm1, hmlen⟩ := hodd
  intro j
  induction j using Nat.strong_induction_on with
  | _ j ih =>
  intro hj
  by_cases hj0 : j = 0
  · subst hj0
    refine ⟨[], ?_, rfl⟩
    rw [proofLoop.eq_def]
    simp
  · have hp : (j - 1) / 2 < j := by omega
    have hplt : (j - 1) / 2 < t.nodes.length := by omega
    obtain ⟨ps2, hps2, hver2⟩ := ih ((j - 1) / 2) hp hplt
    obtain ⟨cb, hcb⟩ := Option.isSome_iff_exists.mp (hdec j hj)
    have hdc := strBytes_to_decodePrefixed _ _ hcb
    have hbyc : bytesAt t.nodes j = cb := bytesAt_eq _ _ _ hcb
    by_cases hpar : j % 2 = 1
    · have hisl : t.is_left_child j = true := by
        simp [MerkleTree.is_left_child, hpar]
      have hsl : j + 1 < t.nodes.length := by omega
      have hget : t.nodes.get? (j + 1) = some (nodeStr t.nodes (j + 1)) :=
        nodeStr_get? _ _ hsl
      obtain ⟨sb, hsb⟩ := Option.isSome_iff_exists.mp (hdec (j + 1) hsl)
      have hds := strBytes_to_decodePrefixed _ _ hsb
      have hbys : bytesAt t.nodes (j + 1) = sb := bytesAt_eq _ _ _ hsb
      have hp2 : 2 * ((j - 1) / 2) + 2 < t.nodes.length := by omega
      have hinvp := hinv ((j - 1) / 2) hp2
      have hc1 : 2 * ((j - 1) / 2) + 1 = j := by omega
      have hc2 : 2 * ((j - 1) / 2) + 2 = j + 1 := by omega
      rw [hc1, hc2, hbyc, hbys] at hinvp
      refine ⟨⟨Direction.Left, nodeStr t.nodes (j + 1)⟩ :: ps2, ?_, ?_⟩
      · rw [proofLoop.eq_def]
        simp only [dif_neg hj0, hisl, if_true, hget, hps2]
      · simp only [MerkleTree.verify, hds, hdc]
        rw [← hinvp]
        exact hver2
    · have hisl : t.is_left_child j = false := by
        simp [MerkleTree.is_left_child]
        omega
      have hsl : j - 1 < t.nodes.length := by omega
      have hget : t.nodes.get? (j - 1) = some (nodeStr t.nodes (j - 1)) :=
        nodeStr_get? _ _ hsl
      obtain ⟨sb, hsb⟩ := Option.isSome_iff_exists.mp (hdec (j - 1) hsl)
      have hds := strBytes_to_decodePrefixed _ _ hsb
      have hbys : bytesAt t.nodes (j - 1) = sb := bytesAt_eq _ _ _ hsb
      have hp2 : 2 * ((j - 1) / 2) + 2 < t.nodes.length := by omega
      have hinvp := hinv ((j - 1) / 2) hp2
      have hc1 : 2 * ((j - 1) / 2) + 1 = j - 1 := by omega
      have hc2 : 2 * ((j - 1) / 2) + 2 = j := by omega
      rw [hc1, hc2, hbyc, hbys] at hinvp
      refine ⟨⟨Direction.Right, nodeStr t.nodes (j - 1)⟩ :: ps2, ?_, ?_⟩
      · rw [proofLoop.eq_def]
        simp only [dif_neg hj0, hisl, Bool.false_eq_true, if_false, hget, hps2]
      · simp only [MerkleTree.verify, hds, hdc]
        rw [← hinvp]
        exact hver2

theorem i2doLoop_spec :
    ∀ k depth index, 2 ^ (depth + k) - 1 ≤ index → index < 2 ^ (depth + k + 1) - 1 →
      i2doLoop index depth (2 ^ (depth + 1) - 1) = depth + k := by
  intro k
  induction k with
  | zero =>
    intro depth index h1 h2
    simp only [Nat.add_zero] at h1 h2
    rw [i2doLoop]
    rw [dif_neg (by omega)]
    omega
  | succ k ih =>
    intro depth index h1 h2
    have e1 : (2:Nat) ^ (depth + 1) ≤ 2 ^ (depth + (k + 1)) :=
      Nat.pow_le_pow_right (by omega) (by omega)
    have hge : index ≥ 2 ^ (depth + 1) - 1 := by omega
    rw [i2doLoop, dif_pos hge]
    have hp := Nat.pos_pow_of_pos (depth + 1) (show 0 < 2 by omega)
    have harg : 2 ^ (depth + 1) - 1 + 2 ^ (depth + 1) = 2 ^ (depth + 1 + 1) - 1 := by
      have e2 : (2:Nat) ^ (depth + 1 + 1) = 2 * 2 ^ (depth + 1) := by rw [pow_succ]; ring
      omega
    rw [harg]
    have h1b : 2 ^ (depth + 1 + k) - 1 ≤ index := by
      have e : depth + 1 + k = depth + (k + 1) := by omega
      rw [e]; exact h1
    have h2b : index < 2 ^ (depth + 1 + k + 1) - 1 := by
      have e : depth + 1 + k + 1 = depth + (k + 1) + 1 := by omega
      rw [e]; exact h2
    rw [ih (depth + 1) index h1b h2b]
    omega

theorem index_to_depth_offset_spec (d index : Nat) (h1 : 2 ^ d - 1 ≤ index)
    (h2 : index < 2 ^ (d + 1) - 1) :
    index_to_depth_offset index = (d, index - (2 ^ d - 1)) := by
  simp only [index_to_depth_offset]
  have hloop : i2doLoop index 0 1 = d := by
    have hs := i2doLoop_spec d 0 index (by simpa using h1) (by simpa using h2)
    simpa using hs
  rw [hloop]
  cases d with
  | zero => simp
  | succ d2 => rw [if_neg (by omega)]

/-- C1: round trip.  For every tree constructed by `new(depth, initial_leaf)`
with depth in `[1, 30]` and a valid 32-byte `0x`-prefixed hex leaf, possibly
followed by any sequence of successful `set` calls with valid 32-byte
`0x`-prefixed hex values, and for every `leaf_index < num_leaves()`,
`proof(leaf_index)` is defined and `verify(proof(leaf_index), v)` returns
`Ok(root())`, where `v` is the string currently stored at that leaf. -/
theorem C1_round_trip (H : Bytes → Bytes) (t : MerkleTree) (ht : Reachable H t)
    (leaf_index : Nat) (hi : leaf_index < t.num_leaves) :
    ∃ ps, t.proof leaf_index = some ps ∧
      MerkleTree.verify H ps
        (nodeStr t.nodes (t.nodes.length - t.num_leaves + leaf_index)) = .ok t.root := by
  obtain ⟨⟨⟨d, hd, hlen⟩, hdec, hinv⟩, _⟩ := reachable_good H t ht
  obtain ⟨e, rfl⟩ : ∃ e, d = e + 1 := ⟨d - 1, by omega⟩
  have h2e : (2:Nat) ^ (e + 1) = 2 * 2 ^ e := by rw [pow_succ]; ring
  have hpe : 0 < (2:Nat) ^ e := Nat.pos_pow_of_pos _ (by omega)
  have hLle : t.num_leaves ≤ t.nodes.length := by unfold MerkleTree.num_leaves; omega
  have hLpos : 1 ≤ t.num_leaves := by unfold MerkleTree.num_leaves; omega
  have hq : t.nodes.length - t.num_leaves + leaf_index < t.nodes.length := by omega
  obtain ⟨ps, hps, hver⟩ :=
    verify_proofLoop H t ⟨2 ^ e, by omega, by omega⟩ hdec hinv _ hq
  refine ⟨ps, ?_, hver⟩
  unfold MerkleTree.proof
  have e2 : leaf_index + t.nodes.length - t.num_leaves
      = t.nodes.length - t.num_leaves + leaf_index := by omega
  rw [e2]
  exact hps

/-- C1 witness: the round trip at the concrete depth-2 tree built from `H0`
and `leaf0`, at leaf index 0. -/
theorem C1_round_trip_witness :
    Reachable H0 tree2 ∧ 0 < tree2.num_leaves ∧
      ∃ ps, tree2.proof 0 = some ps ∧
        MerkleTree.verify H0 ps
          (nodeStr tree2.nodes (tree2.nodes.length - tree2.num_leaves + 0))
          = .ok tree2.root := by
  have hre : Reachable H0 tree2 :=
    Reachable.base 2 leaf0 tree2 (by omega) (by omega) (by decide) (by decide)
  exact ⟨hre, by decide, C1_round_trip H0 tree2 hre 0 (by decide)⟩

/-- C2: hash-consistency invariant.  For every tree produced by `new` with
depth in `[1, 30]` and a valid 32-byte `0x`-prefixed hex leaf, and after
every successful `set` with a valid 32-byte `0x`-prefixed hex value, every
non-leaf index `i` satisfies `nodes[i] = H(nodes[2i+1] ++ nodes[2i+2])` at
the level of decoded bytes, where the children decode to 32 bytes each, so
the concatenation is the raw 64-byte left-then-right juxtaposition. -/
theorem C2_hash_consistency (H : Bytes → Bytes) (hH : ∀ bs, (H bs).length = 32)
    (t : MerkleTree) (ht : Reachable H t) (i : Nat) (hi : 2 * i + 2 < t.nodes.length) :
    bytesAt t.nodes i = H (bytesAt t.nodes (2 * i + 1) ++ bytesAt t.nodes (2 * i + 2)) ∧
    (bytesAt t.nodes (2 * i + 1)).length = 32 ∧
    (bytesAt t.nodes (2 * i + 2)).length = 32 := by
  obtain ⟨⟨_, hdec, hinv⟩, hsh⟩ := reachable_good H t ht
  have h32 : ∀ j, j < t.nodes.length → (bytesAt t.nodes j).length = 32 := by
    intro j hj
    cases hsh j hj with
    | inl hv =>
      obtain ⟨bs, hbs, hl⟩ := ValidHex32_strBytes _ hv
      rw [bytesAt_eq _ _ _ hbs]
      exact hl
    | inr h =>
      obtain ⟨bs, hbs⟩ := h
      have hsb : strBytes (nodeStr t.nodes j) = some (H bs) := by
        rw [hbs]; exact strBytes_hexWrap _
      rw [bytesAt_eq _ _ _ hsb]
      exact hH bs
  refine ⟨?_, h32 _ (by omega), h32 _ hi⟩
  have hmain := hinv i hi
  have hsb : strBytes (nodeStr t.nodes i)
      = some (H (bytesAt t.nodes (2 * i + 1) ++ bytesAt t.nodes (2 * i + 2))) := by
    rw [hmain]; exact strBytes_hexWrap _
  exact bytesAt_eq _ _ _ hsb

/-- C2 witness: the invariant at the root of the concrete depth-2 tree. -/
theorem C2_hash_consistency_witness :
    (∀ bs, (H0 bs).length = 32) ∧ Reachable H0 tree2 ∧ 2 * 0 + 2 < tree2.nodes.length ∧
      (bytesAt tree2.nodes 0
          = H0 (bytesAt tree2.nodes (2 * 0 + 1) ++ bytesAt tree2.nodes (2 * 0 + 2)) ∧
        (bytesAt tree2.nodes (2 * 0 + 1)).length = 32 ∧
        (bytesAt tree2.nodes (2 * 0 + 2)).length = 32) := by
  have hH : ∀ bs, (H0 bs).length = 32 := fun _ => by simp [H0]
  have hre : Reachable H0 tree2 :=
    Reachable.base 2 leaf0 tree2 (by omega) (by omega) (by decide) (by decide)
  exact ⟨hH, hre, by decide, C2_hash_consistency H0 hH tree2 hre 0 (by decide)⟩

/-- C3 (code slip): `set` writes the leaf before validating the value, so on
a malformed-hex value with a valid index it returns `EncodeError` with the
leaf already overwritten, and it accepts without any error a value that
decodes to fewer than 32 bytes (never returning `InvalidBytes`).  Evaluated
at the concrete depth-2 tree: `set(0, zzStr)` errors but mutates the node
array, and `set(0, shortHex)` succeeds. -/
theorem C3_set_mutates_before_validation :
    MerkleTree.set H0 tree2 0 zzStr
        = .err (.EncodeError .invalidHexCharacter) ⟨[root0, zzStr, leaf0]⟩ ∧
      [root0, zzStr, leaf0] ≠ tree2.nodes ∧
      MerkleTree.set H0 tree2 0 shortHex = .ok ⟨[root0, shortHex, leaf0]⟩ := by
  refine ⟨?_, by decide, ?_⟩
  · show updateLoop H0 [root0, zzStr, leaf0] 0 = _
    rw [updateLoop.eq_def]
    decide
  · show updateLoop H0 [root0, shortHex, leaf0] 0 = _
    rw [updateLoop.eq_def]
    decide

/-- C4 (code slip): `new` is not total over all inputs: `new(5, "")` panics
slicing `&initial_leaf[2..]` of a too-short string and `new(0, leaf0)`
underflows the `usize` subtraction `depth - 1`; only the depth bound is
checked first (`new(31, "")` returns `MaxDepthExceeded` without reading the
string). -/
theorem C4_new_panics :
    MerkleTree.new H0 5 [] = .panic ∧ MerkleTree.new H0 0 leaf0 = .panic ∧
      MerkleTree.new H0 31 [] = .err .MaxDepthExceeded := by
  exact ⟨by decide, by decide, by decide⟩

/-- C5 (code slip): `proof` has no bounds check: on the depth-2 tree with
two leaves, `proof(2)` computes flat index 3 and reads the sibling slot 4 of
a 3-element node array, an out-of-bounds access (modelled as `none`) instead
of an explicit typed error. -/
theorem C5_proof_out_of_bounds :
    MerkleTree.new H0 2 leaf0 = .ok tree2 ∧ tree2.num_leaves = 2 ∧
      tree2.proof 2 = none := by
  refine ⟨by decide, by decide, ?_⟩
  show proofLoop tree2 3 = none
  rw [proofLoop.eq_def]
  decide

/-- C6 counterexample: `verify` with an empty proof returns the leaf value
unchanged without any validation, so it succeeds on `"zz"`, which is not a
hexadecimal string decoding to 32 bytes; the claim that `verify` succeeds
only on valid 32-byte hex input is therefore false. -/
theorem C6_verify_no_validation_cex :
    MerkleTree.verify H0 [] ['z', 'z'] = .ok ['z', 'z'] ∧ ¬ ValidHex32 ['z', 'z'] :=
  ⟨rfl, by decide⟩

/-- C6 amended: `verify` validates lazily and never checks the 32-byte
length: with an empty proof it returns the leaf value unchanged with no
validation at all; it never returns `InvalidBytes`; it succeeds whenever the
leaf value and every sibling are strings of at least two characters whose
remainder is well-formed hex, regardless of the decoded byte count; with a
nonempty proof it fails with `EncodeError` when a decoded string is
malformed hex after its first two characters, the first step's sibling being
decoded before the current value; and it panics instead of returning a typed
error when a string about to be decoded is shorter than two characters. -/
theorem C6_verify_validation (H : Bytes → Bytes) :
    (∀ v, MerkleTree.verify H [] v = .ok v) ∧
    (∀ ps v, MerkleTree.verify H ps v ≠ .err .InvalidBytes) ∧
    (∀ ps v, (∀ s ∈ ps, (strBytes s.sibling).isSome = true) →
      (strBytes v).isSome = true → ∃ r, MerkleTree.verify H ps v = .ok r) ∧
    (∀ s rest v e, 2 ≤ s.sibling.length → hexDecode (s.sibling.drop 2) = .error e →
      MerkleTree.verify H (s :: rest) v = .err (.EncodeError e)) ∧
    (∀ s rest v bs e, 2 ≤ s.sibling.length → hexDecode (s.sibling.drop 2) = .ok bs →
      2 ≤ v.length → hexDecode (v.drop 2) = .error e →
      MerkleTree.verify H (s :: rest) v = .err (.EncodeError e)) ∧
    (∀ s rest v, s.sibling.length < 2 → MerkleTree.verify H (s :: rest) v = .panic) ∧
    (∀ s rest v bs, 2 ≤ s.sibling.length → hexDecode (s.sibling.drop 2) = .ok bs →
      v.length < 2 → MerkleTree.verify H (s :: rest) v = .panic) := by
  have hdp : ∀ (s : Str), 2 ≤ s.length →
      decodePrefixed s = some (hexDecode (s.drop 2)) := by
    intro s hs
    unfold decodePrefixed slice2
    rw [if_neg (by omega)]
  have hdp0 : ∀ (s : Str), s.length < 2 → decodePrefixed s = none := by
    intro s hs
    unfold decodePrefixed slice2
    rw [if_pos hs]
  refine ⟨fun v => rfl, ?_, ?_, ?_, ?_, ?_, ?_⟩
  · intro ps
    induction ps with
    | nil =>
      intro v h
      simp [MerkleTree.verify] at h
    | cons s rest ih =>
      intro v
      simp only [MerkleTree.verify]
      cases hds : decodePrefixed s.sibling with
      | none => simp
      | some r =>
        cases r with
        | error e => simp
        | ok sb =>
          cases hdc : decodePrefixed v with
          | none => simp
          | some r2 =>
            cases r2 with
            | error e => simp
            | ok cb =>
              cases s.direction
              · exact ih _
              · exact ih _
  · intro ps
    induction ps with
    | nil =>
      intro v _ _
      exact ⟨v, rfl⟩
    | cons s rest ih =>
      intro v hsib hv
      obtain ⟨sb, hsb⟩ := Option.isSome_iff_exists.mp (hsib s (by simp))
      obtain ⟨cb, hcb⟩ := Option.isSome_iff_exists.mp hv
      have hds := strBytes_to_decodePrefixed _ _ hsb
      have hdc := strBytes_to_decodePrefixed _ _ hcb
      simp only [MerkleTree.verify, hds, hdc]
      cases s.direction with
      | Right =>
        exact ih _ (fun s2 hs2 => hsib s2 (by simp [hs2])) (by rw [strBytes_hexWrap]; rfl)
      | Left =>
        exact ih _ (fun s2 hs2 => hsib s2 (by simp [hs2])) (by rw [strBytes_hexWrap]; rfl)
  · intro s rest v e hsl hsd
    simp only [MerkleTree.verify, hdp s.sibling hsl, hsd]
  · intro s rest v bs e hsl hsd hvl hvd
    simp only [MerkleTree.verify, hdp s.sibling hsl, hsd, hdp v hvl, hvd]
  · intro s rest v hsl
    simp only [MerkleTree.verify, hdp0 s.sibling hsl]
  · intro s rest v bs hsl hsd hvl
    simp only [MerkleTree.verify, hdp s.sibling hsl, hsd, hdp0 v hvl]

/-- C6 witness: the amended statement applied at concrete inputs: the
empty-proof identity and the lazy success at `leaf0`, the `EncodeError` on
the malformed sibling `zzStr`, and the panic on an empty sibling string. -/
theorem C6_verify_validation_witness :
    MerkleTree.verify H0 [] leaf0 = .ok leaf0 ∧
      (∀ s ∈ [(⟨Direction.Left, leaf0⟩ : ProofStep)], (strBytes s.sibling).isSome = true) ∧
      (strBytes leaf0).isSome = true ∧
      (∃ r, MerkleTree.verify H0 [⟨Direction.Left, leaf0⟩] leaf0 = .ok r) ∧
      MerkleTree.verify H0 [⟨Direction.Left, zzStr⟩] leaf0
        = .err (.EncodeError .invalidHexCharacter) ∧
      MerkleTree.verify H0 [⟨Direction.Left, []⟩] leaf0 = .panic := by
  refine ⟨(C6_verify_validation H0).1 leaf0, by decide, by decide, ?_, ?_, ?_⟩
  · exact (C6_verify_validation H0).2.2.1 [⟨Direction.Left, leaf0⟩] leaf0
      (by decide) (by decide)
  · exact (C6_verify_validation H0).2.2.2.1 ⟨Direction.Left, zzStr⟩ [] leaf0
      .invalidHexCharacter (by decide) (by rfl)
  · exact (C6_verify_validation H0).2.2.2.2.2.1 ⟨Direction.Left, []⟩ [] leaf0 (by decide)

/-- C7: leaf count.  For every depth in `[1, 30]` and valid 32-byte
`0x`-prefixed hex leaf, `new(depth, leaf)` succeeds, `num_leaves()` is
`2 ^ (depth - 1)` and the node array holds `2 * 2 ^ (depth - 1) - 1`
entries. -/
theorem C7_leaf_count (H : Bytes → Bytes) (depth : Nat) (leaf : Str)
    (h1 : 1 ≤ depth) (h30 : depth ≤ 30) (hv : ValidHex32 leaf) :
    ∃ t, MerkleTree.new H depth leaf = .ok t ∧
      t.num_leaves = 2 ^ (depth - 1) ∧
      t.nodes.length = 2 * 2 ^ (depth - 1) - 1 := by
  obtain ⟨bytes, _hb, _hblen, hok⟩ := new_ok_of_valid H depth leaf h1 h30 hv
  have h2e : (2:Nat) ^ (depth - 1 + 1) = 2 * 2 ^ (depth - 1) := by rw [pow_succ]; ring
  have hpe : 0 < (2:Nat) ^ (depth - 1) := Nat.pos_pow_of_pos _ (by omega)
  refine ⟨_, hok, ?_, ?_⟩
  · unfold MerkleTree.num_leaves
    show (buildNodes H leaf bytes (depth - 1)).length / 2 + 1 = 2 ^ (depth - 1)
    rw [buildNodes_length]
    omega
  · show (buildNodes H leaf bytes (depth - 1)).length = 2 * 2 ^ (depth - 1) - 1
    rw [buildNodes_length]
    omega

/-- C7 witness: depth 2 with `leaf0` gives two leaves and three nodes. -/
theorem C7_leaf_count_witness :
    1 ≤ 2 ∧ 2 ≤ 30 ∧ ValidHex32 leaf0 ∧
      ∃ t, MerkleTree.new H0 2 leaf0 = .ok t ∧ t.num_leaves = 2 ^ (2 - 1) ∧
        t.nodes.length = 2 * 2 ^ (2 - 1) - 1 :=
  ⟨by omega, by omega, by decide, C7_leaf_count H0 2 leaf0 (by omega) (by omega) (by decide)⟩

/-- C8: boundary of `depth_offset_to_index`: it fails with `Invalid` exactly
when the offset exceeds `base = 2 ^ depth - 1` and otherwise returns
`Ok(base + offset)`; since `offset > 2 ^ depth - 1` is equivalent to
`offset ≥ 2 ^ depth`, the accepted offsets at depth `d` are exactly the
`2 ^ d` slots `0, ..., 2 ^ d - 1`. -/
theorem C8_depth_offset_boundary (depth offset : Nat) :
    (depth_offset_to_index depth offset = .error .Invalid ↔ 2 ^ depth - 1 < offset) ∧
    (2 ^ depth - 1 < offset ↔ 2 ^ depth ≤ offset) ∧
    (offset ≤ 2 ^ depth - 1 →
      depth_offset_to_index depth offset = .ok (2 ^ depth - 1 + offset)) := by
  have hp : 0 < (2:Nat) ^ depth := Nat.pos_pow_of_pos _ (by omega)
  refine ⟨?_, by omega, ?_⟩
  · constructor
    · intro h
      by_contra hc
      simp only [depth_offset_to_index] at h
      rw [if_neg (by omega)] at h
      simp at h
    · intro h
      simp only [depth_offset_to_index]
      rw [if_pos (by omega)]
  · intro h
    simp only [depth_offset_to_index]
    rw [if_neg (by omega)]

/-- C8 witness: at depth 2, offset 3 is the last accepted slot. -/
theorem C8_depth_offset_boundary_witness :
    3 ≤ 2 ^ 2 - 1 ∧ depth_offset_to_index 2 3 = .ok (2 ^ 2 - 1 + 3) :=
  ⟨by omega, (C8_depth_offset_boundary 2 3).2.2 (by omega)⟩

/-- C9: mutual inverses.  For every index, `depth_offset_to_index` applied to
`index_to_depth_offset index` returns `Ok(index)`; and for every coordinate
pair with `offset ≤ 2 ^ depth - 1`, converting to an index and back returns
`(depth, offset)`. -/
theorem C9_mutual_inverses :
    (∀ index, depth_offset_to_index (index_to_depth_offset index).1
        (index_to_depth_offset index).2 = .ok index) ∧
    (∀ depth offset, offset ≤ 2 ^ depth - 1 →
      depth_offset_to_index depth offset = .ok (2 ^ depth - 1 + offset) ∧
      index_to_depth_offset (2 ^ depth - 1 + offset) = (depth, offset)) := by
  constructor
  · intro index
    obtain ⟨ℓ, off, hoff, hieq⟩ := exists_level index
    have hp : 0 < (2:Nat) ^ ℓ := Nat.pos_pow_of_pos _ (by omega)
    have e1 : (2:Nat) ^ (ℓ + 1) = 2 * 2 ^ ℓ := by rw [pow_succ]; ring
    have hspec := index_to_depth_offset_spec ℓ index (by omega) (by omega)
    rw [hspec]
    simp only [depth_offset_to_index]
    rw [if_neg (by omega)]
    congr 1
    omega
  · intro depth offset hoff
    have hp : 0 < (2:Nat) ^ depth := Nat.pos_pow_of_pos _ (by omega)
    have e1 : (2:Nat) ^ (depth + 1) = 2 * 2 ^ depth := by rw [pow_succ]; ring
    constructor
    · simp only [depth_offset_to_index]
      rw [if_neg (by omega)]
    · rw [index_to_depth_offset_spec depth (2 ^ depth - 1 + offset) (by omega) (by omega)]
      congr 1
      omega

/-- C9 witness: index 14 maps to `(3, 7)` and back; `(2, 3)` maps to index 6
and back. -/
theorem C9_mutual_inverses_witness :
    depth_offset_to_index (index_to_depth_offset 14).1 (index_to_depth_offset 14).2
        = .ok 14 ∧
      3 ≤ 2 ^ 2 - 1 ∧ depth_offset_to_index 2 3 = .ok (2 ^ 2 - 1 + 3) ∧
      index_to_depth_offset (2 ^ 2 - 1 + 3) = (2, 3) := by
  have h := C9_mutual_inverses.2 2 3 (by omega)
  exact ⟨C9_mutual_inverses.1 14, by omega, h.1, h.2⟩

/-- C10: single-node edge case.  For every string accepted by `new` at depth
1, the tree has exactly one node, `root()` returns the caller's string
verbatim, `proof(0)` is the empty sequence, and `verify([], leaf)` returns
`Ok(leaf) = Ok(root())`. -/
theorem C10_single_node (H : Bytes → Bytes) (leaf : Str) (t : MerkleTree)
    (h : MerkleTree.new H 1 leaf = .ok t) :
    t.nodes = [leaf] ∧ t.root = leaf ∧ t.proof 0 = some [] ∧
      MerkleTree.verify H [] leaf = .ok t.root := by
  obtain ⟨_, _, bytes, _hb, hnodes⟩ := new_ok_inv H 1 leaf t h
  have hn : t.nodes = [leaf] := by
    rw [hnodes]
    rfl
  have hroot : t.root = leaf := by
    unfold MerkleTree.root
    rw [hn]
    rfl
  refine ⟨hn, hroot, ?_, ?_⟩
  · unfold MerkleTree.proof MerkleTree.num_leaves
    rw [hn]
    simp only [List.length_singleton]
    rw [proofLoop.eq_def]
    simp
  · rw [hroot]
    rfl

/-- C10 witness: the single-node tree on the concrete leaf `leaf0`. -/
theorem C10_single_node_witness :
    MerkleTree.new H0 1 leaf0 = .ok ⟨[leaf0]⟩ ∧
      (MerkleTree.mk [leaf0]).nodes = [leaf0] ∧ (MerkleTree.mk [leaf0]).root = leaf0 ∧
      (MerkleTree.mk [leaf0]).proof 0 = some [] ∧
      MerkleTree.verify H0 [] leaf0 = .ok (MerkleTree.mk [leaf0]).root := by
  have h : MerkleTree.new H0 1 leaf0 = .ok ⟨[leaf0]⟩ := by decide
  exact ⟨h, C10_single_node H0 leaf0 ⟨[leaf0]⟩ h⟩
